import Mathlib

/-!
Shallow embedding of the `sortedmap` Go package (generic version,
`sortedmap.go`): a key-value container keeping a hash map (`items`) and a
sorted slice of keys (`sortedKeys`) in sync.  Machine integers never
overflow here (all arithmetic is on indices bounded by slice lengths), so
indices are modelled as `Nat`.  Concurrency (the `sync.RWMutex`) is not
modelled: every operation is a sequential state transformer, which is the
behaviour of the Go code for any single linearised history.
-/

namespace Sortedmap

/-- The loop of Go `sort.Search` (binary search over `[i, j)`):
```
i, j := 0, n
for i < j {
    h := int(uint(i+j) >> 1)
    if !f(h) { i = h + 1 } else { j = h }
}
return i
```
`fuel` bounds the number of iterations.  Each iteration strictly shrinks
`j - i`, so the loop runs at most `j - i` times and callers pass
`fuel ≥ j - i`, so the bound never binds (the spec lemmas below carry the
hypothesis `j - i ≤ fuel`).  `(i + j) / 2` is exactly Go's overflow-free
midpoint on `Nat`. -/
def goSearchAux (f : Nat → Bool) : Nat → Nat → Nat → Nat
  | 0, i, _ => i
  | fuel + 1, i, j =>
    if i < j then
      if f ((i + j) / 2) = false then goSearchAux f fuel ((i + j) / 2 + 1) j
      else goSearchAux f fuel i ((i + j) / 2)
    else i

/-- Go `sort.Search(n, f)`. -/
def goSearch (n : Nat) (f : Nat → Bool) : Nat :=
  goSearchAux f n 0 n

/-- The search both `insertSorted` and `deleteSorted` perform
(`sortedmap.go` lines 12-17 and 27-32): `sort.Search(len(slice), func(i)
bool { return slice[i] >= value })`.  `sort.Search` only probes indices
`0 ≤ i < len(slice)`, so the `getD` default is never consulted. -/
def searchGE [LinearOrder K] (slice : List K) (value : K) : Nat :=
  goSearch slice.length (fun i => decide (value ≤ slice.getD i value))

/-- Effect on the backing array of Go `copy(s[dst:], s[src:])`, where both
arguments are suffixes of the same slice `s`: the first
`min (len-dst) (len-src)` cells starting at `dst` receive the pre-copy
values starting at `src` (Go `copy` has memmove semantics on overlap);
everything else is untouched and the length is unchanged. -/
def goCopyWithin (s : List K) (dst src : Nat) : List K :=
  s.take dst ++ (s.drop src).take (min (s.length - dst) (s.length - src)) ++
    (s.drop dst).drop (min (s.length - dst) (s.length - src))

/-- Go `insertSorted` (`sortedmap.go` lines 11-24):
```
i := sort.Search(len(slice), func(i int) bool { return slice[i] >= value })
slice = append(slice, value)
copy(slice[i+1:], slice[i:])
slice[i] = value
return slice
```
-/
def insertSorted [LinearOrder K] (slice : List K) (value : K) : List K :=
  let i := searchGE slice value
  (goCopyWithin (slice ++ [value]) (i + 1) i).set i value

/-- Go `deleteSorted` (`sortedmap.go` lines 26-41):
```
i := sort.Search(len(slice), func(i int) bool { return slice[i] >= value })
if i < len(slice) && slice[i] == value {
    copy(slice[i:], slice[i+1:])
    slice = slice[:len(slice)-1]
}
return slice
```
The guard `i < len(slice) && slice[i] == value` is exactly
`slice.get? i = some value`. -/
def deleteSorted [LinearOrder K] (slice : List K) (value : K) : List K :=
  let i := searchGE slice value
  if slice.get? i = some value then
    (goCopyWithin slice i (i + 1)).take (slice.length - 1)
  else
    slice

/-- A Go built-in `map[K]T`, modelled as an association list; the map
operations below keep keys unique, so `len` of the map is the list's
length. -/
def GoMap (K T : Type) : Type := List (K × T)

/-- The two-result read `v, ok := m[k]` (the `ok` is `isSome`). -/
def mapLookup [DecidableEq K] (m : GoMap K T) (k : K) : Option T :=
  match m with
  | [] => none
  | (k₀, v₀) :: rest => if k₀ = k then some v₀ else mapLookup rest k

/-- The write `m[k] = v`: replaces the value if `k` is present, otherwise
adds the entry. -/
def mapInsert [DecidableEq K] (m : GoMap K T) (k : K) (v : T) : GoMap K T :=
  match m with
  | [] => [(k, v)]
  | (k₀, v₀) :: rest =>
    if k₀ = k then (k, v) :: rest else (k₀, v₀) :: mapInsert rest k v

/-- The built-in `delete(m, k)`. -/
def mapErase [DecidableEq K] (m : GoMap K T) (k : K) : GoMap K T :=
  match m with
  | [] => []
  | (k₀, v₀) :: rest => if k₀ = k then rest else (k₀, v₀) :: mapErase rest k

/-- The `SortedMap[K, T]` struct (`sortedmap.go` lines 43-47); the
`sync.RWMutex` field carries no sequential state and is omitted. -/
structure SortedMap (K T : Type) where
  items : GoMap K T
  sortedKeys : List K

variable {K T : Type}

namespace SortedMap

/-- Go `New` (`sortedmap.go` lines 49-54). -/
def New : SortedMap K T :=
  { items := [], sortedKeys := [] }

/-- Go `NewWithCapacity` (`sortedmap.go` lines 56-61); the capacity only
pre-reserves storage and has no observable effect. -/
def NewWithCapacity (capacity : Nat) : SortedMap K T :=
  { items := [], sortedKeys := [] }

/-- Go `NewFrom` (`sortedmap.go` lines 63-73). -/
def NewFrom (key : K) (value : T) : SortedMap K T :=
  { items := [(key, value)], sortedKeys := [key] }

/-- Go `has` (`sortedmap.go` lines 75-79). -/
def has [DecidableEq K] (sm : SortedMap K T) (key : K) : Bool :=
  (mapLookup sm.items key).isSome

/-- Go `Set` (`sortedmap.go` lines 81-92): insert the key into the sorted
slice only when absent, then write the value into the map. -/
def Set [LinearOrder K] (sm : SortedMap K T) (key : K) (value : T) :
    SortedMap K T :=
  let sortedKeys :=
    if sm.has key then sm.sortedKeys else insertSorted sm.sortedKeys key
  { items := mapInsert sm.items key value, sortedKeys := sortedKeys }

end SortedMap

/-- The type of Go `error` values this package can return.  `errors.New`
creates a fresh sentinel value; the package has exactly one
(`ErrKeyDoesNotExist`), so one constructor. -/
inductive GoError : Type where
  | keyDoesNotExist
deriving DecidableEq

/-- Go `var ErrKeyDoesNotExist = errors.New("key does not exist")`
(`sortedmap.go` line 94): a single fixed sentinel value. -/
def ErrKeyDoesNotExist : GoError := GoError.keyDoesNotExist

namespace SortedMap

/-- Go `Get` (`sortedmap.go` lines 96-106).  `value, exists := sm.items[key]`
leaves `value` at the zero value of `T` when the key is absent; the zero
value is modelled by `default`.  The second component is the returned
`error` (`none` = `nil`). -/
def Get [DecidableEq K] [Inhabited T] (sm : SortedMap K T) (key : K) :
    T × Option GoError :=
  match mapLookup sm.items key with
  | some value => (value, none)
  | none => (default, some ErrKeyDoesNotExist)

/-- Go `MustGet` (`sortedmap.go` lines 108-118).  `Except.error e` models
`panic(e)` on an absent key; `Except.ok` is the normal return. -/
def MustGet [DecidableEq K] (sm : SortedMap K T) (key : K) :
    Except GoError T :=
  match mapLookup sm.items key with
  | some value => Except.ok value
  | none => Except.error ErrKeyDoesNotExist

/-- Go `Len` (`sortedmap.go` lines 120-129).  `none` models the
`panic("sorted keys and items are out of sync")`; `some n` the normal
return of `len(sm.items)` (the map's size, which is `sm.items.length`
since the map operations keep keys unique). -/
def Len (sm : SortedMap K T) : Option Nat :=
  if sm.items.length ≠ sm.sortedKeys.length then none
  else some sm.items.length

/-- The body of `Delete`'s loop for one key (`sortedmap.go` lines
168-176): skip absent keys, otherwise remove from both stores. -/
def deleteOne [LinearOrder K] (sm : SortedMap K T) (key : K) :
    SortedMap K T :=
  if sm.has key then
    { items := mapErase sm.items key,
      sortedKeys := deleteSorted sm.sortedKeys key }
  else sm

/-- Go `Delete(keys ...K)` (`sortedmap.go` lines 164-179): the loop over the
variadic keys, in order. -/
def Delete [LinearOrder K] (sm : SortedMap K T) (keys : List K) :
    SortedMap K T :=
  keys.foldl deleteOne sm

/-- Go `Keys` (`sortedmap.go` lines 181-186): `return sm.sortedKeys` — the
field itself, no copy is made. -/
def Keys (sm : SortedMap K T) : List K :=
  sm.sortedKeys

/-- Go `Items` (`sortedmap.go` lines 188-199): a fresh slice built by
reading `sm.items[key]` for each key of `Keys()` in order (the one-result
map read yields the zero value on a miss, which cannot happen in a
consistent state). -/
def Items [DecidableEq K] [Inhabited T] (sm : SortedMap K T) : List T :=
  sm.Keys.map (fun key => (mapLookup sm.items key).getD default)

/-- The states reachable from the three constructors by `Set` and
`Delete` calls. -/
inductive Reachable [LinearOrder K] : SortedMap K T → Prop where
  | new : Reachable New
  | newWithCapacity (c : Nat) : Reachable (NewWithCapacity c)
  | newFrom (key : K) (value : T) : Reachable (NewFrom key value)
  | set {sm : SortedMap K T} (key : K) (value : T) :
      Reachable sm → Reachable (sm.Set key value)
  | delete {sm : SortedMap K T} (keys : List K) :
      Reachable sm → Reachable (sm.Delete keys)

/-- The internal consistency invariant of the container: the key slice is
strictly ascending, the map's keys are unique, and both stores hold the
same key set. -/
structure WF [LinearOrder K] (sm : SortedMap K T) : Prop where
  sorted : sm.sortedKeys.Sorted (· < ·)
  nodupItems : (sm.items.map Prod.fst).Nodup
  mem_iff : ∀ k, (mapLookup sm.items k).isSome = true ↔ k ∈ sm.sortedKeys

/-- The observable effect of a caller running `ks := sm.Keys(); ks[i] = v`.
`Keys` returns `sm.sortedKeys` itself (`sortedmap.go` line 185), i.e. a
slice header sharing the container's backing array, so the element write
through the returned slice lands in the container's own sorted-key
storage. -/
def writeKeysResult (sm : SortedMap K T) (i : Nat) (v : K) : SortedMap K T :=
  { sm with sortedKeys := sm.sortedKeys.set i v }

/-- The observable effect of a caller running `vs := sm.Items(); vs[i] = v`.
`Items` builds `values` in a freshly allocated array (`make` + `append`,
`sortedmap.go` lines 193-195) sharing nothing with the container, so the
write does not touch the container at all. -/
def writeItemsResult (sm : SortedMap K T) (i : Nat) (v : T) : SortedMap K T :=
  sm

end SortedMap

/-! ### Correctness of the binary search (`sort.Search`) -/

theorem goSearchAux_bounds (f : Nat → Bool) :
    ∀ fuel i j, j - i ≤ fuel → i ≤ j →
      i ≤ goSearchAux f fuel i j ∧ goSearchAux f fuel i j ≤ j := by
  intro fuel
  induction fuel with
  | zero =>
    intro i j hfuel hij
    have : i = j := by omega
    subst this
    simp [goSearchAux]
  | succ fuel ih =>
    intro i j hfuel hij
    by_cases hlt : i < j
    · have hmlow : i ≤ (i + j) / 2 := by omega
      have hmhigh : (i + j) / 2 < j := by omega
      by_cases hf : f ((i + j) / 2) = false
      · have := ih ((i + j) / 2 + 1) j (by omega) (by omega)
        simp only [goSearchAux, if_pos hlt, if_pos hf]
        omega
      · have := ih i ((i + j) / 2) (by omega) (by omega)
        simp only [goSearchAux, if_pos hlt, if_neg hf]
        omega
    · simp [goSearchAux, if_neg hlt]
      omega

/-- Invariant-style specification of the `sort.Search` loop: assuming the
predicate is monotone on `[0, n)`, the result splits `[0, n)` into a
`false` prefix and a `true` suffix. -/
theorem goSearchAux_spec (f : Nat → Bool) (n : Nat)
    (mono : ∀ a b, a ≤ b → b < n → f a = true → f b = true) :
    ∀ fuel i j, j - i ≤ fuel → i ≤ j → j ≤ n →
      (∀ k, k < i → f k = false) →
      (∀ k, j ≤ k → k < n → f k = true) →
      (∀ k, k < goSearchAux f fuel i j → f k = false) ∧
      (∀ k, goSearchAux f fuel i j ≤ k → k < n → f k = true) := by
  intro fuel
  induction fuel with
  | zero =>
    intro i j hfuel hij hjn hlow hhigh
    have : i = j := by omega
    subst this
    simpa [goSearchAux] using ⟨hlow, hhigh⟩
  | succ fuel ih =>
    intro i j hfuel hij hjn hlow hhigh
    by_cases hlt : i < j
    · have hmlow : i ≤ (i + j) / 2 := by omega
      have hmhigh : (i + j) / 2 < j := by omega
      by_cases hf : f ((i + j) / 2) = false
      · simp only [goSearchAux, if_pos hlt, if_pos hf]
        refine ih ((i + j) / 2 + 1) j (by omega) (by omega) hjn ?_ hhigh
        intro k hk
        rcases Nat.lt_or_ge k i with hki | hki
        · exact hlow k hki
        · cases hfk : f k with
          | false => rfl
          | true =>
            have : f ((i + j) / 2) = true :=
              mono k ((i + j) / 2) (by omega) (by omega) hfk
            rw [this] at hf
            cases hf
      · have hftrue : f ((i + j) / 2) = true := by
          cases h : f ((i + j) / 2) with
          | false => exact absurd h hf
          | true => rfl
        simp only [goSearchAux, if_pos hlt, if_neg hf]
        refine ih i ((i + j) / 2) (by omega) (by omega) (by omega) hlow ?_
        intro k hk hkn
        exact mono ((i + j) / 2) k hk hkn hftrue
    · have : i = j := by omega
      subst this
      simpa [goSearchAux, if_neg hlt] using ⟨hlow, hhigh⟩

theorem goSearch_le (n : Nat) (f : Nat → Bool) : goSearch n f ≤ n :=
  (goSearchAux_bounds f n 0 n (by omega) (by omega)).2

theorem goSearch_spec (n : Nat) (f : Nat → Bool)
    (mono : ∀ a b, a ≤ b → b < n → f a = true → f b = true) :
    (∀ k, k < goSearch n f → f k = false) ∧
    (∀ k, goSearch n f ≤ k → k < n → f k = true) :=
  goSearchAux_spec f n mono n 0 n (by omega) (by omega) (by omega)
    (by omega) (by omega)

/-- On a strictly ascending slice, `searchGE slice value` is at most the
length, everything strictly before it is `< value`, and everything from it
on is `≥ value`. -/
theorem searchGE_spec [LinearOrder K] (slice : List K) (value : K)
    (hs : slice.Sorted (· < ·)) :
    searchGE slice value ≤ slice.length ∧
    (∀ k, (hk : k < slice.length) → k < searchGE slice value →
      slice.get ⟨k, hk⟩ < value) ∧
    (∀ k, (hk : k < slice.length) → searchGE slice value ≤ k →
      value ≤ slice.get ⟨k, hk⟩) := by
  have hgetD : ∀ k, (hk : k < slice.length) →
      slice.getD k value = slice.get ⟨k, hk⟩ := by
    intro k hk
    simp [List.getD_eq_getElem?_getD, List.getElem?_eq_getElem hk,
      List.get_eq_getElem]
  have mono : ∀ a b, a ≤ b → b < slice.length →
      (fun i => decide (value ≤ slice.getD i value)) a = true →
      (fun i => decide (value ≤ slice.getD i value)) b = true := by
    intro a b hab hb ha
    have hal : a < slice.length := by omega
    simp only [hgetD a hal, hgetD b hb, decide_eq_true_eq] at ha ⊢
    rcases Nat.eq_or_lt_of_le hab with rfl | hlt
    · exact ha
    · have := (List.pairwise_iff_get.mp hs) ⟨a, hal⟩ ⟨b, hb⟩ hlt
      exact le_of_lt (lt_of_le_of_lt ha this)
  obtain ⟨hfalse, htrue⟩ := goSearch_spec slice.length _ mono
  refine ⟨goSearch_le _ _, ?_, ?_⟩
  · intro k hk hlt
    have := hfalse k hlt
    simp only [hgetD k hk, decide_eq_false_iff_not, not_le] at this
    exact this
  · intro k hk hge
    have := htrue k hge hk
    simp only [hgetD k hk, decide_eq_true_eq] at this
    exact this

theorem searchGE_le_length [LinearOrder K] (slice : List K) (value : K) :
    searchGE slice value ≤ slice.length :=
  goSearch_le _ _

/-! ### Lemmas about the map model -/

theorem mapLookup_insert_self [DecidableEq K] (m : GoMap K T) (k : K) (v : T) :
    mapLookup (mapInsert m k v) k = some v := by
  induction m with
  | nil => simp [mapInsert, mapLookup]
  | cons hd tl ih =>
    obtain ⟨k₀, v₀⟩ := hd
    by_cases h : k₀ = k
    · simp [mapInsert, mapLookup, h]
    · simp [mapInsert, mapLookup, h, ih]

theorem mapLookup_insert_ne [DecidableEq K] (m : GoMap K T) (k k' : K) (v : T)
    (h : k' ≠ k) : mapLookup (mapInsert m k v) k' = mapLookup m k' := by
  have h2 : ¬ (k = k') := fun e => h e.symm
  induction m with
  | nil => simp [mapInsert, mapLookup, h2]
  | cons hd tl ih =>
    obtain ⟨k₀, v₀⟩ := hd
    by_cases h₀ : k₀ = k
    · subst h₀
      simp [mapInsert, mapLookup, h2]
    · simp [mapInsert, mapLookup, h₀, ih]

theorem mapInsert_fst_of_isSome [DecidableEq K] (m : GoMap K T) (k : K) (v : T)
    (h : (mapLookup m k).isSome = true) :
    (mapInsert m k v).map Prod.fst = m.map Prod.fst := by
  induction m with
  | nil => simp [mapLookup] at h
  | cons hd tl ih =>
    obtain ⟨k₀, v₀⟩ := hd
    by_cases h₀ : k₀ = k
    · simp [mapInsert, h₀]
    · simp only [mapLookup, if_neg h₀] at h
      simp [mapInsert, h₀, ih h]

theorem mapInsert_fst_of_none [DecidableEq K] (m : GoMap K T) (k : K) (v : T)
    (h : mapLookup m k = none) :
    (mapInsert m k v).map Prod.fst = m.map Prod.fst ++ [k] := by
  induction m with
  | nil => simp [mapInsert]
  | cons hd tl ih =>
    obtain ⟨k₀, v₀⟩ := hd
    by_cases h₀ : k₀ = k
    · simp [mapLookup, h₀] at h
    · simp only [mapLookup, if_neg h₀] at h
      simp [mapInsert, h₀, ih h]

theorem mapLookup_isSome_iff_mem [DecidableEq K] (m : GoMap K T) (k : K) :
    (mapLookup m k).isSome = true ↔ k ∈ m.map Prod.fst := by
  induction m with
  | nil => simp [mapLookup]
  | cons hd tl ih =>
    obtain ⟨k₀, v₀⟩ := hd
    by_cases h₀ : k₀ = k
    · simp [mapLookup, h₀]
    · have h2 : ¬ (k = k₀) := fun e => h₀ e.symm
      simp [mapLookup, h₀, h2, ih]

theorem mapErase_fst [DecidableEq K] (m : GoMap K T) (k : K) :
    (mapErase m k).map Prod.fst = (m.map Prod.fst).erase k := by
  induction m with
  | nil => simp [mapErase]
  | cons hd tl ih =>
    obtain ⟨k₀, v₀⟩ := hd
    by_cases h₀ : k₀ = k
    · simp [mapErase, h₀, List.erase_cons]
    · simp [mapErase, h₀, List.erase_cons, ih]

theorem mapLookup_erase_ne [DecidableEq K] (m : GoMap K T) (k k' : K)
    (h : k' ≠ k) : mapLookup (mapErase m k) k' = mapLookup m k' := by
  have h2 : ¬ (k = k') := fun e => h e.symm
  induction m with
  | nil => simp [mapErase]
  | cons hd tl ih =>
    obtain ⟨k₀, v₀⟩ := hd
    by_cases h₀ : k₀ = k
    · subst h₀
      simp [mapErase, mapLookup, h2]
    · simp [mapErase, mapLookup, h₀, ih]

theorem mapLookup_erase_self [DecidableEq K] (m : GoMap K T) (k : K)
    (hnd : (m.map Prod.fst).Nodup) : mapLookup (mapErase m k) k = none := by
  induction m with
  | nil => simp [mapErase, mapLookup]
  | cons hd tl ih =>
    obtain ⟨k₀, v₀⟩ := hd
    simp only [List.map_cons, List.nodup_cons] at hnd
    by_cases h₀ : k₀ = k
    · subst h₀
      rcases h : mapLookup (tl : GoMap K T) k₀ with _ | v₁
      · simpa [mapErase] using h
      · exact absurd ((mapLookup_isSome_iff_mem tl k₀).mp (by simp [h]))
          hnd.1
    · simp [mapErase, mapLookup, h₀, ih hnd.2]

/-! ### Characterization of `insertSorted` and `deleteSorted` -/

/-- The `append`/`copy`/`set` dance of `insertSorted` amounts to inserting
`value` at position `i` (the search result). -/
theorem insertSorted_eq [LinearOrder K] (slice : List K) (value : K) :
    insertSorted slice value =
      slice.take (searchGE slice value) ++
        value :: slice.drop (searchGE slice value) := by
  have hi : searchGE slice value ≤ slice.length := searchGE_le_length slice value
  obtain ⟨x, hx⟩ : ∃ x, (slice ++ [value])[searchGE slice value]? = some x :=
    ⟨_, List.getElem?_eq_getElem (by simp; omega)⟩
  have hmin : min ((slice ++ [value]).length - (searchGE slice value + 1))
      ((slice ++ [value]).length - searchGE slice value)
      = slice.length - searchGE slice value := by
    simp only [List.length_append, List.length_singleton]
    omega
  have hA : (slice ++ [value]).take (searchGE slice value + 1)
      = slice.take (searchGE slice value) ++ [x] := by
    rw [List.take_succ, hx, List.take_append_of_le_length hi]
    rfl
  have hB : ((slice ++ [value]).drop (searchGE slice value)).take
      (slice.length - searchGE slice value) = slice.drop (searchGE slice value) := by
    rw [List.drop_append_of_le_length hi]
    exact List.take_left' (by simp)
  have hC : ((slice ++ [value]).drop (searchGE slice value + 1)).drop
      (slice.length - searchGE slice value) = [] := by
    rw [List.drop_drop]
    apply List.drop_eq_nil_iff.mpr
    simp
    omega
  have hlenP : (slice.take (searchGE slice value)).length = searchGE slice value :=
    List.length_take_of_le hi
  simp only [insertSorted, goCopyWithin, hmin, hA, hB, hC]
  rw [List.append_nil,
    List.set_append_left _ _ (by simp [hlenP]),
    List.set_append_right _ _ (by omega : (slice.take (searchGE slice value)).length ≤ searchGE slice value)]
  simp [hlenP]

/-- On a sorted slice, every element strictly before the search position is
strictly below the searched value. -/
theorem lt_of_mem_take_searchGE [LinearOrder K] {slice : List K} {value x : K}
    (hs : slice.Sorted (· < ·)) (hx : x ∈ slice.take (searchGE slice value)) :
    x < value := by
  obtain ⟨m, hm, hget⟩ := List.mem_iff_getElem.mp hx
  have hmlen : m < slice.length := by
    simp at hm
    omega
  have hmi : m < searchGE slice value := by
    simp at hm
    omega
  have := (searchGE_spec slice value hs).2.1 m hmlen hmi
  simp only [List.get_eq_getElem] at this
  rw [← hget]
  simpa using this

/-- On a sorted slice, every element at or after the search position is at
least the searched value. -/
theorem le_of_mem_drop_searchGE [LinearOrder K] {slice : List K} {value x : K}
    (hs : slice.Sorted (· < ·)) (hx : x ∈ slice.drop (searchGE slice value)) :
    value ≤ x := by
  obtain ⟨m, hm, hget⟩ := List.mem_iff_getElem.mp hx
  have hmlen : searchGE slice value + m < slice.length := by
    simp at hm
    omega
  have := (searchGE_spec slice value hs).2.2 (searchGE slice value + m) hmlen
    (by omega)
  simp only [List.get_eq_getElem] at this
  rw [← hget]
  simpa [List.getElem_drop] using this

/-- On a strictly sorted slice, every element of the suffix after index `i`
is strictly above the element at `i`. -/
theorem sorted_getElem_lt_of_mem_drop [LinearOrder K] {slice : List K}
    {i : Nat} (hs : slice.Sorted (· < ·)) (hi : i < slice.length) {x : K}
    (hx : x ∈ slice.drop (i + 1)) : slice.get ⟨i, hi⟩ < x := by
  obtain ⟨m, hm, hget⟩ := List.mem_iff_getElem.mp hx
  have hmlen : i + 1 + m < slice.length := by
    simp at hm
    omega
  have := (List.pairwise_iff_get.mp hs) ⟨i, hi⟩ ⟨i + 1 + m, hmlen⟩ (by simp; omega)
  rw [← hget]
  simpa [List.get_eq_getElem, List.getElem_drop] using this

/-- On a sorted slice containing `value`, the binary search lands exactly
on `value`. -/
theorem searchGE_get_of_mem [LinearOrder K] {slice : List K} {value : K}
    (hs : slice.Sorted (· < ·)) (hmem : value ∈ slice) :
    slice.get? (searchGE slice value) = some value := by
  have hconc := List.take_append_drop (searchGE slice value) slice
  have hvd : value ∈ slice.drop (searchGE slice value) := by
    rcases (List.mem_append.mp (by rw [hconc]; exact hmem)) with h | h
    · exact absurd (lt_of_mem_take_searchGE hs h) (lt_irrefl value)
    · exact h
  have hlt : searchGE slice value < slice.length := by
    by_contra hge
    rw [List.drop_eq_nil_iff.mpr (by omega)] at hvd
    simp at hvd
  rw [List.get?_eq_getElem?, List.getElem?_eq_getElem hlt]
  have hle : value ≤ slice[searchGE slice value] := by
    have := (searchGE_spec slice value hs).2.2 (searchGE slice value) hlt
      (le_refl _)
    simpa [List.get_eq_getElem] using this
  have hge : slice[searchGE slice value] ≤ value := by
    have hd : slice.drop (searchGE slice value) =
        slice[searchGE slice value] :: slice.drop (searchGE slice value + 1) :=
      List.drop_eq_getElem_cons hlt
    rw [hd] at hvd
    rcases List.mem_cons.mp hvd with h | h
    · exact le_of_eq h.symm
    · exact le_of_lt (by simpa [List.get_eq_getElem] using
        sorted_getElem_lt_of_mem_drop hs hlt h)
  exact congrArg some (le_antisymm hge hle)

/-- Lemma: `insertSorted` permutes to pushing the value on the front: the result
holds exactly the old elements plus the new one. -/
theorem insertSorted_perm [LinearOrder K] (slice : List K) (value : K) :
    List.Perm (insertSorted slice value) (value :: slice) := by
  rw [insertSorted_eq]
  have h := @List.perm_middle K value (slice.take (searchGE slice value))
    (slice.drop (searchGE slice value))
  rwa [List.take_append_drop] at h

theorem insertSorted_length [LinearOrder K] (slice : List K) (value : K) :
    (insertSorted slice value).length = slice.length + 1 := by
  simpa using (insertSorted_perm slice value).length_eq

theorem mem_insertSorted [LinearOrder K] (slice : List K) (value x : K) :
    x ∈ insertSorted slice value ↔ x = value ∨ x ∈ slice := by
  rw [(insertSorted_perm slice value).mem_iff, List.mem_cons]

/-- Inserting an absent value into a strictly sorted slice keeps it
strictly sorted. -/
theorem insertSorted_sorted [LinearOrder K] {slice : List K} {value : K}
    (hs : slice.Sorted (· < ·)) (hmem : value ∉ slice) :
    (insertSorted slice value).Sorted (· < ·) := by
  rw [insertSorted_eq]
  rw [List.Sorted, List.pairwise_append]
  refine ⟨List.Pairwise.sublist (List.take_sublist _ _) hs, ?_, ?_⟩
  · rw [List.pairwise_cons]
    refine ⟨?_, List.Pairwise.sublist (List.drop_sublist _ _) hs⟩
    intro x hx
    exact lt_of_le_of_ne (le_of_mem_drop_searchGE hs hx)
      (fun e => hmem (e ▸ List.mem_of_mem_drop hx))
  · intro x hx y hy
    have hxlt := lt_of_mem_take_searchGE hs hx
    rcases List.mem_cons.mp hy with rfl | hy
    · exact hxlt
    · exact lt_trans hxlt (lt_of_le_of_ne (le_of_mem_drop_searchGE hs hy)
        (fun e => hmem (e ▸ List.mem_of_mem_drop hy)))

/-- When the value is absent, `deleteSorted` takes the no-op branch. -/
theorem deleteSorted_of_not_mem [LinearOrder K] {slice : List K} {value : K}
    (hmem : value ∉ slice) : deleteSorted slice value = slice := by
  have hguard : ¬ (slice[searchGE slice value]? = some value) := by
    rw [← List.get?_eq_getElem?]
    exact fun h => hmem (List.get?_mem h)
  simp [deleteSorted, hguard]

/-- The `copy`/truncate dance of `deleteSorted` on a slice whose search
position holds the value amounts to removing the element at that
position. -/
theorem deleteSorted_eq_of_get [LinearOrder K] {slice : List K} {value : K}
    (hguard : slice.get? (searchGE slice value) = some value) :
    deleteSorted slice value =
      slice.take (searchGE slice value) ++
        slice.drop (searchGE slice value + 1) := by
  have hlt : searchGE slice value < slice.length := by
    rw [List.get?_eq_getElem?] at hguard
    exact (List.getElem?_eq_some_iff.mp hguard).1
  have hmin : min (slice.length - searchGE slice value)
      (slice.length - (searchGE slice value + 1))
      = slice.length - (searchGE slice value + 1) := by
    omega
  have hB : (slice.drop (searchGE slice value + 1)).take
      (slice.length - (searchGE slice value + 1)) =
      slice.drop (searchGE slice value + 1) :=
    List.take_of_length_le (by simp)
  have hC : (slice.drop (searchGE slice value)).drop
      (slice.length - (searchGE slice value + 1)) =
      slice.drop (searchGE slice value + (slice.length - (searchGE slice value + 1))) :=
    List.drop_drop _ _ _
  simp only [deleteSorted, if_pos hguard, goCopyWithin, hmin, hB, hC]
  apply List.take_left'
  simp
  omega

/-- A sorted slice containing `value` splits around its search
position. -/
theorem slice_decomp_of_mem [LinearOrder K] {slice : List K} {value : K}
    (hs : slice.Sorted (· < ·)) (hmem : value ∈ slice) :
    slice = slice.take (searchGE slice value) ++
      value :: slice.drop (searchGE slice value + 1) := by
  have hguard := searchGE_get_of_mem hs hmem
  have hlt : searchGE slice value < slice.length := by
    rw [List.get?_eq_getElem?] at hguard
    exact (List.getElem?_eq_some_iff.mp hguard).1
  have hval : slice[searchGE slice value] = value := by
    rw [List.get?_eq_getElem?, List.getElem?_eq_getElem hlt] at hguard
    exact Option.some.inj hguard
  conv_lhs => rw [← List.take_append_drop (searchGE slice value) slice]
  rw [List.drop_eq_getElem_cons hlt, hval]

/-! ### Preservation of the internal invariant -/

namespace SortedMap

theorem WF_New [LinearOrder K] : WF (New : SortedMap K T) := by
  refine ⟨List.sorted_nil, List.nodup_nil, ?_⟩
  intro k
  simp [New, mapLookup]

theorem WF_NewWithCapacity [LinearOrder K] (c : Nat) :
    WF (NewWithCapacity c : SortedMap K T) := by
  refine ⟨List.sorted_nil, List.nodup_nil, ?_⟩
  intro k
  simp [NewWithCapacity, mapLookup]

theorem WF_NewFrom [LinearOrder K] (key : K) (value : T) :
    WF (NewFrom key value) := by
  refine ⟨List.sorted_singleton key, by simp [NewFrom], ?_⟩
  intro k
  by_cases hk : key = k
  · simp [NewFrom, mapLookup, hk]
  · have h2 : ¬ k = key := fun e => hk e.symm
    simp [NewFrom, mapLookup, hk, h2]

theorem WF_Set [LinearOrder K] {sm : SortedMap K T} (h : WF sm)
    (key : K) (value : T) : WF (sm.Set key value) := by
  by_cases hhas : sm.has key = true
  · refine ⟨?_, ?_, ?_⟩
    · simpa [Set, hhas] using h.sorted
    · simpa [Set, mapInsert_fst_of_isSome sm.items key value hhas]
        using h.nodupItems
    · intro k
      by_cases hk : k = key
      · subst hk
        simp only [Set, hhas, if_pos, mapLookup_insert_self]
        simpa using (h.mem_iff k).mp hhas
      · simp only [Set, hhas, if_pos, mapLookup_insert_ne sm.items key k value hk]
        exact h.mem_iff k
  · have hnone : mapLookup sm.items key = none :=
      Option.not_isSome_iff_eq_none.mp (by simpa [has] using hhas)
    have hnotmem : key ∉ sm.sortedKeys :=
      fun hmem => hhas (by simpa [has] using (h.mem_iff key).mpr hmem)
    have hnotfst : key ∉ sm.items.map Prod.fst :=
      fun hmem => hhas (by
        simpa [has] using (mapLookup_isSome_iff_mem sm.items key).mpr hmem)
    refine ⟨?_, ?_, ?_⟩
    · simpa [Set, hhas] using insertSorted_sorted h.sorted hnotmem
    · rw [show (sm.Set key value).items = mapInsert sm.items key value from rfl,
        mapInsert_fst_of_none sm.items key value hnone]
      rw [List.nodup_append]
      refine ⟨h.nodupItems, List.nodup_singleton key, ?_⟩
      intro a ha hb
      exact hnotfst (by rwa [List.mem_singleton.mp hb] at ha)
    · intro k
      have hkeys : (sm.Set key value).sortedKeys
          = insertSorted sm.sortedKeys key := by
        simp [Set, hhas]
      rw [hkeys, mem_insertSorted]
      by_cases hk : k = key
      · subst hk
        simp [Set, mapLookup_insert_self]
      · rw [show (sm.Set key value).items = mapInsert sm.items key value from rfl,
          mapLookup_insert_ne sm.items key k value hk]
        simp only [hk, false_or]
        exact h.mem_iff k

theorem WF_deleteOne [LinearOrder K] {sm : SortedMap K T} (h : WF sm)
    (key : K) : WF (sm.deleteOne key) := by
  by_cases hhas : sm.has key = true
  · have hmemkeys : key ∈ sm.sortedKeys := (h.mem_iff key).mp (by simpa [has] using hhas)
    have hdecomp := slice_decomp_of_mem h.sorted hmemkeys
    have hdel := deleteSorted_eq_of_get (searchGE_get_of_mem h.sorted hmemkeys)
    have hnd : sm.sortedKeys.Nodup := h.sorted.nodup
    have hsub : List.Sublist
        (sm.sortedKeys.take (searchGE sm.sortedKeys key) ++
          sm.sortedKeys.drop (searchGE sm.sortedKeys key + 1)) sm.sortedKeys := by
      conv_rhs => rw [hdecomp]
      exact List.Sublist.append_left (List.sublist_cons_self _ _) _
    have hkeynot : key ∉ sm.sortedKeys.take (searchGE sm.sortedKeys key) ++
        sm.sortedKeys.drop (searchGE sm.sortedKeys key + 1) := by
      rw [hdecomp] at hnd
      rw [List.nodup_append] at hnd
      obtain ⟨hA, hB, hAB⟩ := hnd
      rw [List.nodup_cons] at hB
      intro hmem
      rcases List.mem_append.mp hmem with hm | hm
      · exact hAB hm (List.mem_cons_self _ _)
      · exact hB.1 hm
    have hkeysEq : (sm.deleteOne key).sortedKeys
        = sm.sortedKeys.take (searchGE sm.sortedKeys key) ++
          sm.sortedKeys.drop (searchGE sm.sortedKeys key + 1) := by
      simp [deleteOne, hhas, hdel]
    have hitemsEq : (sm.deleteOne key).items = mapErase sm.items key := by
      simp [deleteOne, hhas]
    refine ⟨?_, ?_, ?_⟩
    · rw [hkeysEq]
      exact List.Pairwise.sublist hsub h.sorted
    · rw [hitemsEq, mapErase_fst]
      exact List.Pairwise.sublist (List.erase_sublist key _) h.nodupItems
    · intro k
      rw [hkeysEq, hitemsEq]
      by_cases hk : k = key
      · subst hk
        rw [mapLookup_erase_self sm.items k h.nodupItems]
        simpa using hkeynot
      · rw [mapLookup_erase_ne sm.items key k hk, h.mem_iff k]
        conv_lhs => rw [hdecomp]
        simp [List.mem_append, hk]
  · have : sm.deleteOne key = sm := by simp [deleteOne, hhas]
    rwa [this]

theorem WF_Delete [LinearOrder K] {sm : SortedMap K T} (h : WF sm)
    (keys : List K) : WF (sm.Delete keys) := by
  induction keys generalizing sm with
  | nil => exact h
  | cons k rest ih => exact ih (WF_deleteOne h k)

/-- Every state reachable from the constructors by `Set` and `Delete`
calls satisfies the internal invariant. -/
theorem reachable_WF [LinearOrder K] {sm : SortedMap K T}
    (h : Reachable sm) : WF sm := by
  induction h with
  | new => exact WF_New
  | newWithCapacity c => exact WF_NewWithCapacity c
  | newFrom key value => exact WF_NewFrom key value
  | set key value _ ih => exact WF_Set ih key value
  | delete keys _ ih => exact WF_Delete ih keys

/-- Both stores agree on cardinality in any well-formed state. -/
theorem WF_length_eq [LinearOrder K] {sm : SortedMap K T} (h : WF sm) :
    sm.items.length = sm.sortedKeys.length := by
  have hperm : List.Perm (sm.items.map Prod.fst) sm.sortedKeys :=
    (List.perm_ext_iff_of_nodup h.nodupItems h.sorted.nodup).mpr
      (fun k => by rw [← mapLookup_isSome_iff_mem, h.mem_iff])
  simpa using hperm.length_eq

end SortedMap

/-! ### The claims -/

/-- C1: in every state reachable from any constructor (`New`,
`NewWithCapacity`, `NewFrom`) by `Set` and `Delete` calls, `Len` returns
normally (never the internal-consistency panic) and equals the length of
`Keys` and the length of `Items`, and `Items[i]` is the value stored under
`Keys[i]`. -/
theorem claim1_len_keys_items_consistent [LinearOrder K] [Inhabited T]
    {sm : SortedMap K T} (h : SortedMap.Reachable sm) :
    sm.Len = some sm.Keys.length ∧
    sm.Items.length = sm.Keys.length ∧
    (∀ i k, sm.Keys.get? i = some k →
      ∃ v, mapLookup sm.items k = some v ∧ sm.Items.get? i = some v) := by
  have hwf := SortedMap.reachable_WF h
  have hlen := SortedMap.WF_length_eq hwf
  refine ⟨?_, ?_, ?_⟩
  · simp [SortedMap.Len, SortedMap.Keys, hlen]
  · simp [SortedMap.Items, SortedMap.Keys]
  · intro i k hk
    have hkmem : k ∈ sm.sortedKeys := List.get?_mem hk
    have hsome : (mapLookup sm.items k).isSome = true := (hwf.mem_iff k).mpr hkmem
    obtain ⟨v, hv⟩ := Option.isSome_iff_exists.mp hsome
    refine ⟨v, hv, ?_⟩
    rw [SortedMap.Items, List.get?_map, hk]
    simp [hv]

/-- C1 witness: a concrete reachable container on which the theorem
evaluates. -/
theorem claim1_witness :
    (SortedMap.Set (SortedMap.Set (SortedMap.New : SortedMap Nat Nat) 2 20) 1 10).Len
      = some (SortedMap.Set (SortedMap.Set (SortedMap.New : SortedMap Nat Nat) 2 20) 1 10).Keys.length ∧
    (SortedMap.Set (SortedMap.Set (SortedMap.New : SortedMap Nat Nat) 2 20) 1 10).Len = some 2 :=
  ⟨(claim1_len_keys_items_consistent (SortedMap.Reachable.set 1 10
      (SortedMap.Reachable.set 2 20 SortedMap.Reachable.new))).1, by decide⟩

/-- C2: after any sequence of `Set` and `Delete` calls from any
constructor, `Keys` is strictly ascending with no duplicates, and its key
set is the key set of the index map. -/
theorem claim2_keys_sorted_nodup [LinearOrder K] {sm : SortedMap K T}
    (h : SortedMap.Reachable sm) :
    sm.Keys.Sorted (· < ·) ∧ sm.Keys.Nodup ∧
    (∀ k, k ∈ sm.Keys ↔ (mapLookup sm.items k).isSome = true) := by
  have hwf := SortedMap.reachable_WF h
  exact ⟨hwf.sorted, hwf.sorted.nodup, fun k => (hwf.mem_iff k).symm⟩

/-- C2 witness: a concrete reachable container (including a `Delete`) on
which the theorem evaluates. -/
theorem claim2_witness :
    ((SortedMap.Set (SortedMap.Set (SortedMap.New : SortedMap Nat Nat) 2 20) 1 10).Delete
        [2]).Keys.Sorted (· < ·) ∧
    ((SortedMap.Set (SortedMap.Set (SortedMap.New : SortedMap Nat Nat) 2 20) 1 10).Delete
        [2]).Keys = [1] :=
  ⟨(claim2_keys_sorted_nodup (SortedMap.Reachable.delete [2] (SortedMap.Reachable.set 1 10
      (SortedMap.Reachable.set 2 20 SortedMap.Reachable.new)))).1, by decide⟩

/-- C3 counterexample: `Keys` does NOT return an independent copy.  It
returns `sm.sortedKeys` itself (`sortedmap.go` line 185), so a caller
writing through the returned slice (modelled by `writeKeysResult`)
changes the container's internal sorted-key sequence: on the container
`{0 ↦ 10, 1 ↦ 11}`, writing `5` at index `0` of the slice returned by
`Keys` turns the internal key sequence `[0, 1]` into `[5, 1]`. -/
theorem claim3_counterexample :
    ¬ ((SortedMap.writeKeysResult
          (SortedMap.Set (SortedMap.Set (SortedMap.New : SortedMap Nat Nat) 0 10) 1 11)
          0 5).sortedKeys
        = (SortedMap.Set (SortedMap.Set (SortedMap.New : SortedMap Nat Nat) 0 10) 1 11).sortedKeys) := by
  decide

/-- C3 (amended): `Items` builds its result in a fresh array, so mutating
it leaves the container untouched; `Keys`, however, returns the internal
slice itself (not a copy), so an element write through the slice returned
by `Keys` lands in the container's internal sorted-key sequence at that
index (the index map is unaffected). -/
theorem claim3_accessor_aliasing [LinearOrder K] (sm : SortedMap K T)
    (i : Nat) (v : K) (w : T) :
    SortedMap.writeItemsResult sm i w = sm ∧
    (SortedMap.writeKeysResult sm i v).items = sm.items ∧
    (SortedMap.writeKeysResult sm i v).sortedKeys = sm.sortedKeys.set i v :=
  ⟨rfl, rfl, rfl⟩

/-- C4: `Get` returns the stored value with a `nil` error when the key is
present, and (being a total function, never a panic) returns the
`ErrKeyDoesNotExist` error exactly when the key is absent. -/
theorem claim4_get_error_iff [LinearOrder K] [Inhabited T]
    (sm : SortedMap K T) (key : K) :
    (∀ v, mapLookup sm.items key = some v → sm.Get key = (v, none)) ∧
    ((sm.Get key).2 = some ErrKeyDoesNotExist ↔ mapLookup sm.items key = none) := by
  rcases h : mapLookup sm.items key with _ | v <;>
    simp [SortedMap.Get, h]

/-- C4 witness: concrete hit and miss. -/
theorem claim4_witness :
    (SortedMap.Set (SortedMap.New : SortedMap Nat Nat) 1 10).Get 1 = (10, none) :=
  (claim4_get_error_iff _ 1).1 10 (by decide)

/-- C5: `Set` on an already-present key overwrites only the value: `Get`
then yields the new value and `Keys` is exactly the sequence from before
the call. -/
theorem claim5_set_overwrite [LinearOrder K] [Inhabited T]
    {sm : SortedMap K T} {key : K} (h : sm.has key = true) (value : T) :
    (sm.Set key value).Get key = (value, none) ∧
    (sm.Set key value).Keys = sm.Keys := by
  constructor
  · simp [SortedMap.Get, SortedMap.Set, mapLookup_insert_self]
  · simp [SortedMap.Keys, SortedMap.Set, h]

/-- C5 witness: overwriting key `1`. -/
theorem claim5_witness :
    ((SortedMap.Set (SortedMap.New : SortedMap Nat Nat) 1 10).Set 1 99).Get 1 = (99, none) ∧
    ((SortedMap.Set (SortedMap.New : SortedMap Nat Nat) 1 10).Set 1 99).Keys
      = (SortedMap.Set (SortedMap.New : SortedMap Nat Nat) 1 10).Keys :=
  claim5_set_overwrite (by decide) 99

/-- C6: the variadic `Delete(k1, …, kn)` has exactly the effect of the
single-key calls `Delete(k1)`, …, `Delete(kn)` performed one at a time in
that order (a left fold), and `Delete()` with no keys leaves the container
unchanged. -/
theorem claim6_delete_sequential [LinearOrder K] (sm : SortedMap K T)
    (keys : List K) :
    sm.Delete keys = keys.foldl (fun s k => s.Delete [k]) sm ∧
    sm.Delete ([] : List K) = sm := by
  refine ⟨?_, rfl⟩
  induction keys generalizing sm with
  | nil => rfl
  | cons k rest ih => exact ih (sm.deleteOne k)

/-- C7: deleting an absent key leaves the whole container state (its size,
key sequence and every stored value) unchanged, with no error and no
panic (`Delete` is a total function into states). -/
theorem claim7_delete_absent_noop [LinearOrder K] {sm : SortedMap K T}
    {key : K} (h : sm.has key = false) :
    sm.Delete [key] = sm := by
  simp [SortedMap.Delete, SortedMap.deleteOne, h]

/-- C7 witness: deleting key `5`, absent from `{1 ↦ 10}`. -/
theorem claim7_witness :
    (SortedMap.Set (SortedMap.New : SortedMap Nat Nat) 1 10).Delete [5]
      = SortedMap.Set (SortedMap.New : SortedMap Nat Nat) 1 10 :=
  claim7_delete_absent_noop (by decide)

/-- C8: on an ascending sorted slice not containing the key, `insertSorted`
puts the key at the position computed by the binary search — everything
before it strictly smaller, everything after it strictly larger — by
shifting the suffix right one slot; the result is one longer, sorted
ascending, and is a permutation of the old elements plus the key. -/
theorem claim8_insertSorted_correct [LinearOrder K] {slice : List K}
    {value : K} (hs : slice.Sorted (· < ·)) (hmem : value ∉ slice) :
    insertSorted slice value =
      slice.take (searchGE slice value) ++
        value :: slice.drop (searchGE slice value) ∧
    (∀ x ∈ slice.take (searchGE slice value), x < value) ∧
    (∀ x ∈ slice.drop (searchGE slice value), value < x) ∧
    (insertSorted slice value).Sorted (· < ·) ∧
    (insertSorted slice value).length = slice.length + 1 ∧
    List.Perm (insertSorted slice value) (value :: slice) :=
  ⟨insertSorted_eq slice value,
   fun x hx => lt_of_mem_take_searchGE hs hx,
   fun x hx => lt_of_le_of_ne (le_of_mem_drop_searchGE hs hx)
     (fun e => hmem (e ▸ List.mem_of_mem_drop hx)),
   insertSorted_sorted hs hmem,
   insertSorted_length slice value,
   insertSorted_perm slice value⟩

/-- C8 witness: inserting `2` into `[1, 3]`. -/
theorem claim8_witness :
    insertSorted [(1 : Nat), 3] 2 =
      List.take (searchGE [(1 : Nat), 3] 2) [(1 : Nat), 3] ++
        2 :: List.drop (searchGE [(1 : Nat), 3] 2) [(1 : Nat), 3] ∧
    (insertSorted [(1 : Nat), 3] 2).Sorted (· < ·) ∧
    insertSorted [(1 : Nat), 3] 2 = [1, 2, 3] :=
  ⟨(claim8_insertSorted_correct (by decide) (by decide)).1,
   (claim8_insertSorted_correct (by decide) (by decide)).2.2.2.1,
   by decide⟩

/-- C9: `MustGet` panics (modelled by `Except.error`) exactly when the key
is absent; when the key is present the panic branch is not taken and the
result is the value `Get` returns. -/
theorem claim9_mustGet_panic_iff [LinearOrder K] [Inhabited T]
    (sm : SortedMap K T) (key : K) :
    ((∃ e, sm.MustGet key = Except.error e) ↔ sm.has key = false) ∧
    (sm.has key = true → sm.MustGet key = Except.ok (sm.Get key).1) := by
  rcases h : mapLookup sm.items key with _ | v <;>
    simp [SortedMap.MustGet, SortedMap.Get, SortedMap.has, h]
  exact ⟨ErrKeyDoesNotExist, trivial⟩

/-- C9 witness: present key `1`. -/
theorem claim9_witness :
    (SortedMap.Set (SortedMap.New : SortedMap Nat Nat) 1 10).MustGet 1
      = Except.ok ((SortedMap.Set (SortedMap.New : SortedMap Nat Nat) 1 10).Get 1).1 :=
  (claim9_mustGet_panic_iff _ 1).2 (by decide)

/-- C10: on an absent key, `Get` returns the zero value of `T` paired with
the error, and the error is exactly the one sentinel `ErrKeyDoesNotExist`
(a single fixed value, so every failing call returns that same value and
callers can match it by identity). -/
theorem claim10_get_zero_and_sentinel [LinearOrder K] [Inhabited T]
    {sm : SortedMap K T} {key : K} (h : sm.has key = false) :
    sm.Get key = ((default : T), some ErrKeyDoesNotExist) := by
  have hnone : mapLookup sm.items key = none :=
    Option.not_isSome_iff_eq_none.mp (by simpa [SortedMap.has] using h)
  simp [SortedMap.Get, hnone]

/-- C10 witness: key `7` absent from the empty container; the zero value
of `Nat` is `0`. -/
theorem claim10_witness :
    (SortedMap.New : SortedMap Nat Nat).Get 7 = (0, some ErrKeyDoesNotExist) :=
  claim10_get_zero_and_sentinel (by decide)

end Sortedmap
